import Mathlib

/-!
Verification of the `simple` example domain of the stitch repository
(`src/domains/simple.rs`): the value model, the coercion layer
(`From<Val>` / `Into<Val>` impls), the symbol resolver `val_of_prim`,
the function resolver `fn_of_prim`, and the DSL primitive functions
`add`, `mul`, `map`, `sum`.

Modelling conventions:
  - `i32` is modelled as `Int`; arithmetic that the platform performs with
    two's-complement wraparound is made explicit through `wrap32`.
  - A Rust panic (including the panics of the `From<Val>` impls and the
    `unwrap()` in `val_of_prim`) is modelled as `Except.error (.fatal msg)`,
    a fatal, unrecoverable failure, kept distinct from the recoverable
    evaluation failures `.err msg` that `apply` may return.
  - `Result<T, VError>` becomes `Except Failure T`.
-/

namespace SimpleDomain

/-- Fatal failures model Rust panics (contract violations such as an
ill-typed coercion); `err` models recoverable evaluation failures
(`Err(..)` values flowing through `VResult`). -/
inductive Failure where
  | fatal : String → Failure
  | err : String → Failure
deriving DecidableEq, Repr

mutual
/-- The domain value type `SimpleVal` of `simple.rs`: ints and polymorphic
lists whose elements are full `Val`s (allowing nesting). -/
inductive SimpleVal where
  | Int : Int → SimpleVal
  | List : List Val → SimpleVal

/-- Modelled from the spec: the generic value `domain::Val<SimpleVal>` is not
under `src/`; per the spec it holds either a domain value (`Dom`, the
`Domain(T)` variant used throughout `simple.rs`) or an opaque callable owned
by the host evaluator (`Func`, the `Function(F)` variant), which we identify
by its primitive name and arity. -/
inductive Val where
  | Dom : SimpleVal → Val
  | Func : String → Nat → Val
end

/-- The `apply` capability of the Evaluation Handle (`DomExpr`): invoke a
function value on one argument inside the host evaluator. -/
def Apply : Type := Val → Val → Except Failure Val

/-- The type of DSL primitive functions: ordered argument list plus the
evaluation handle (restricted to its `apply` capability, the only part
`simple.rs` uses), producing a `VResult`. -/
def DSLFn : Type := List Val → Apply → Except Failure Val

/-- `impl From<Val> for i32`: unwrap a `Dom(Int(_))`, panic otherwise. -/
def fromValI32 : Val → Except Failure Int
  | .Dom (.Int i) => .ok i
  | _ => .error (.fatal "from_val_to_i32: not an int")

/-- Element-wise unwrapping of a list of `Val`s into ints, as performed by
`v.into_iter().map(|v| v.into()).collect()` inside `From<Val> for Vec<i32>`;
the first ill-typed element panics. -/
def i32ListOfVals : List Val → Except Failure (List Int)
  | [] => .ok []
  | v :: rest =>
    match fromValI32 v with
    | .error e => .error e
    | .ok i =>
      match i32ListOfVals rest with
      | .error e => .error e
      | .ok l => .ok (i :: l)

/-- `impl From<Val> for Vec<i32>`: unwrap a `Dom(List(_))` element-wise,
panic otherwise. -/
def fromValVecI32 : Val → Except Failure (List Int)
  | .Dom (.List v) => i32ListOfVals v
  | _ => .error (.fatal "from_val_to_vec: not a list")

/-- `impl From<Val> for Vec<Val>`: unwrap a `Dom(List(_))` (the element
conversion `From<Val> for Val` is the identity), panic otherwise. -/
def fromValVecVal : Val → Except Failure (List Val)
  | .Dom (.List v) => .ok v
  | _ => .error (.fatal "from_val_to_vec: not a list")

/-- `impl Into<Val> for i32`: wrap an int as `Dom(Int(_))`. -/
def i32IntoVal (i : Int) : Val := .Dom (.Int i)

/-- `impl Into<Val> for Vec<i32>`: wrap element-wise, then as `Dom(List(_))`. -/
def vecI32IntoVal (l : List Int) : Val := .Dom (.List (l.map i32IntoVal))

/-- `impl Into<Val> for Vec<Vec<i32>>`: nested element-wise wrapping. -/
def vecVecI32IntoVal (l : List (List Int)) : Val := .Dom (.List (l.map vecI32IntoVal))

/-- Element-wise unwrapping of a list of `Val`s into `Vec<i32>`s, as inside
`From<Val> for Vec<Vec<i32>>`. -/
def vecI32ListOfVals : List Val → Except Failure (List (List Int))
  | [] => .ok []
  | v :: rest =>
    match fromValVecI32 v with
    | .error e => .error e
    | .ok l =>
      match vecI32ListOfVals rest with
      | .error e => .error e
      | .ok ls => .ok (l :: ls)

/-- `impl From<Val> for Vec<Vec<i32>>`: unwrap a `Dom(List(_))` whose
elements are themselves int lists. -/
def fromValVecVecI32 : Val → Except Failure (List (List Int))
  | .Dom (.List v) => vecI32ListOfVals v
  | _ => .error (.fatal "from_val_to_vec: not a list")

/-- The representable range of the platform's `i32`. -/
def inI32 (v : Int) : Prop := -2147483648 ≤ v ∧ v ≤ 2147483647

instance instDecidableInI32 (v : Int) : Decidable (inI32 v) := by
  unfold inI32
  infer_instance

/-- 32-bit two's-complement wraparound: reduce an unbounded integer to the
value the platform's `i32` arithmetic produces. -/
def wrap32 (z : Int) : Int := (z + 2147483648) % 4294967296 - 2147483648

/-- `add`'s underlying operator on ints: `x + y` under 32-bit wraparound. -/
def addOp (x y : Int) : Int := wrap32 (x + y)

/-- `mul`'s underlying operator on ints: `x * y` under 32-bit wraparound. -/
def mulOp (x y : Int) : Int := wrap32 (x * y)

/-- Accumulating decimal-digit scan used by `str::parse::<i32>`: consume the
whole remaining input as digits or fail. -/
def decDigits : List Char → Nat → Option Nat
  | [], acc => some acc
  | c :: rest, acc =>
    if c.isDigit then decDigits rest (acc * 10 + (c.toNat - 48)) else none

/-- Core of `str::parse::<i32>` after the optional sign: at least one
character, all decimal digits, result within the `i32` range. -/
def i32FromStrCore (cs : List Char) (neg : Bool) : Option Int :=
  match cs with
  | [] => none
  | _ :: _ =>
    match decDigits cs 0 with
    | none => none
    | some n =>
      let v : Int := if neg then -(n : Int) else (n : Int)
      if inI32 v then some v else none

/-- Rust's `str::parse::<i32>`: optional `+`/`-` sign, then one or more
decimal digits spanning the entire string, range-checked against `i32`. -/
def i32FromStr (s : String) : Option Int :=
  match s.data with
  | [] => none
  | c :: rest =>
    if c = '+' then i32FromStrCore rest false
    else if c = '-' then i32FromStrCore rest true
    else i32FromStrCore (c :: rest) false

/-- JSON insignificant whitespace, as accepted by `serde_json`. -/
def isJsonWs (c : Char) : Bool := c = ' ' || c = '\t' || c = '\n' || c = '\r'

/-- Skip leading JSON whitespace. -/
def skipWs : List Char → List Char
  | [] => []
  | c :: rest => if isJsonWs c then skipWs rest else c :: rest

/-- Greedy decimal-digit scan returning the accumulated value and the rest. -/
def digitsLoop : List Char → Nat → Nat × List Char
  | [], acc => (acc, [])
  | c :: rest, acc =>
    if c.isDigit then digitsLoop rest (acc * 10 + (c.toNat - 48)) else (acc, c :: rest)

/-- A JSON unsigned integer: one or more digits, no leading zero (after a
leading `0` no further digit may follow). -/
def jsonNat (cs : List Char) : Option (Nat × List Char) :=
  match cs with
  | [] => none
  | c :: rest =>
    if c = '0' then
      match rest with
      | c2 :: _ => if c2.isDigit then none else some (0, rest)
      | [] => some (0, [])
    else if c.isDigit then
      some (digitsLoop rest (c.toNat - 48))
    else none

/-- A JSON integer element deserialized into `i32` by `serde_json`:
optional `-` sign, JSON digits, range-checked against `i32`. -/
def jsonInt (cs : List Char) : Option (Int × List Char) :=
  match cs with
  | [] => none
  | c :: rest =>
    if c = '-' then
      match jsonNat rest with
      | some (n, r) => if inI32 (-(n : Int)) then some (-(n : Int), r) else none
      | none => none
    else
      match jsonNat (c :: rest) with
      | some (n, r) => if inI32 (n : Int) then some ((n : Int), r) else none
      | none => none

/-- The non-empty element list of a JSON array of integers:
`int ws ( ',' ws int ws )* ']'`. The fuel argument only serves Lean's
termination checker; each loop iteration consumes at least one character,
so `length + 1` fuel is always sufficient. -/
def jsonItems : Nat → List Char → Option (List Int × List Char)
  | 0, _ => none
  | fuel + 1, cs =>
    match jsonInt cs with
    | none => none
    | some (n, rest) =>
      match skipWs rest with
      | [] => none
      | c :: rest2 =>
        if c = ']' then some ([n], rest2)
        else if c = ',' then
          match jsonItems fuel (skipWs rest2) with
          | some (ns, rest3) => some (n :: ns, rest3)
          | none => none
        else none

/-- `serde_json::from_str::<Vec<i32>>`: a whole-string JSON document that is
an array of integers, with only whitespace allowed around it. -/
def jsonIntArray (s : String) : Option (List Int) :=
  match skipWs s.data with
  | [] => none
  | c :: rest =>
    if c = '[' then
      match skipWs rest with
      | [] => none
      | c2 :: rest2 =>
        if c2 = ']' then (if skipWs rest2 = [] then some [] else none)
        else
          match jsonItems ((c2 :: rest2).length + 1) (c2 :: rest2) with
          | some (ns, r) => if skipWs r = [] then some ns else none
          | none => none
    else none

/-- The decimal value of a digit string, most significant digit first. -/
def decValue (cs : List Char) : Nat :=
  cs.foldl (fun a c => a * 10 + (c.toNat - 48)) 0

/-- A run of JSON insignificant whitespace (possibly empty). -/
def WsRun (w : List Char) : Prop := ∀ c ∈ w, isJsonWs c = true

/-- The digit string of a JSON unsigned integer: non-empty, all decimal
digits, and no leading zero unless the number is exactly `0`. -/
def JsonNatTok (ds : List Char) : Prop :=
  ds ≠ [] ∧ (∀ c ∈ ds, c.isDigit = true) ∧ (∀ ds', ds = '0' :: ds' → ds' = [])

/-- The characters of one JSON integer element accepted for `i32`: JSON
digits with an optional leading `-` sign, denoting `n` within the `i32`
range. -/
def JsonIntTok (t : List Char) (n : Int) : Prop :=
  (JsonNatTok t ∧ n = (decValue t : Int) ∧ inI32 n) ∨
  (∃ ds, t = '-' :: ds ∧ JsonNatTok ds ∧ n = -(decValue ds : Int) ∧ inI32 n)

/-- `body` is the text of the non-empty element list of a JSON integer
array, from the first element up to and including the closing bracket:
`int ws ']'` or `int ws ',' ws <more elements>`. -/
inductive JsonElemsTok : List Char → List Int → Prop where
  | last : ∀ (t w : List Char) (n : Int),
      JsonIntTok t n → WsRun w → JsonElemsTok (t ++ w ++ [']']) [n]
  | cons : ∀ (t w w' body : List Char) (n : Int) (ns : List Int),
      JsonIntTok t n → WsRun w → WsRun w' → JsonElemsTok body ns →
      JsonElemsTok (t ++ w ++ ',' :: (w' ++ body)) (n :: ns)

/-- The symbol `s`, in its entirety, is a JSON array-of-integers literal
denoting `ns`: optional whitespace, `[`, optional whitespace, then either
the closing bracket (empty array) or the element list through its closing
bracket, then optional whitespace — and nothing else. This is the spec's
literal grammar for the `[`-leading case, stated independently of the
resolver. -/
def isJsonIntArrayLiteral (s : String) (ns : List Int) : Prop :=
  (∃ w1 w2 w3, WsRun w1 ∧ WsRun w2 ∧ WsRun w3 ∧
    s.data = w1 ++ '[' :: (w2 ++ ']' :: w3) ∧ ns = []) ∨
  (∃ w1 w2 body w3, WsRun w1 ∧ WsRun w2 ∧ WsRun w3 ∧
    s.data = w1 ++ '[' :: (w2 ++ body ++ w3) ∧ JsonElemsTok body ns)

/-- Modelled from the spec: the `define_semantics!` macro (not under `src/`,
invoked in `simple.rs` with `"+" = (add, 2), "*" = (mul, 2),
"map" = (map, 2), "sum" = (sum, 1)`) populates the static value table
`PRIMS`, associating each listed symbol with a precomputed function `Value`;
`lookupPrims` is the hash-map `get` on that table. -/
def lookupPrims (p : String) : Option Val :=
  if p = "+" then some (.Func "+" 2)
  else if p = "*" then some (.Func "*" 2)
  else if p = "map" then some (.Func "map" 2)
  else if p = "sum" then some (.Func "sum" 1)
  else none

/-- `val_of_prim` of `simple.rs`: registry lookup, then the dynamic literal
fallback. The `p.as_str().chars().next().unwrap()` call panics on the empty
symbol (modelled as a fatal failure); otherwise a symbol starting with a
digit is parsed whole as an `i32`, a symbol starting with `[` is parsed
whole as a JSON array of integers, and anything else resolves to `none`. -/
def val_of_prim (p : String) : Except Failure (Option Val) :=
  match lookupPrims p with
  | some v => .ok (some v)
  | none =>
    match p.data with
    | [] => .error (.fatal "called Option::unwrap on a None value")
    | c :: _ =>
      if c.isDigit then
        .ok ((i32FromStr p).map fun i => Val.Dom (.Int i))
      else if c = '[' then
        .ok ((jsonIntArray p).map fun l =>
          Val.Dom (.List (l.map fun i => Val.Dom (.Int i))))
      else
        .ok none

/-- Modelled from the spec where `load_args!` (not under `src/`) is
concerned: arguments are supplied positionally as an ordered list matching
the declared arity exactly, each coerced via the `From<Val>` impls (whose
panics are fatal); an arity mismatch is a contract violation (fatal).
This is `fn add` of `simple.rs`: `load_args!(args, x:i32, y:i32); ok(x+y)`,
with `x+y` the platform's wrapping 32-bit addition. -/
def add (args : List Val) (_handle : Apply) : Except Failure Val :=
  match args with
  | [a, b] =>
    match fromValI32 a with
    | .error e => .error e
    | .ok x =>
      match fromValI32 b with
      | .error e => .error e
      | .ok y => .ok (Val.Dom (.Int (addOp x y)))
  | _ => .error (.fatal "load_args: wrong number of arguments")

/-- `fn mul` of `simple.rs`: `load_args!(args, x:i32, y:i32); ok(x*y)`. -/
def mul (args : List Val) (_handle : Apply) : Except Failure Val :=
  match args with
  | [a, b] =>
    match fromValI32 a with
    | .error e => .error e
    | .ok x =>
      match fromValI32 b with
      | .error e => .error e
      | .ok y => .ok (Val.Dom (.Int (mulOp x y)))
  | _ => .error (.fatal "load_args: wrong number of arguments")

/-- The iterator pipeline inside `fn map`:
`xs.into_iter().map(|x| handle.apply(&fn_val, x)).collect::<Result<Vec,_>>()`.
`collect` drives the iterator element by element in order and stops at the
first `Err`, which becomes the overall result. -/
def mapVals (handle : Apply) (fn_val : Val) : List Val → Except Failure (List Val)
  | [] => .ok []
  | x :: rest =>
    match handle fn_val x with
    | .error e => .error e
    | .ok y =>
      match mapVals handle fn_val rest with
      | .error e => .error e
      | .ok ys => .ok (y :: ys)

/-- The sequence of arguments on which the `collect` pipeline of `fn map`
actually invokes `handle.apply`: every element up to and including the first
failing one, in order. -/
def mapValsCalled (handle : Apply) (fn_val : Val) : List Val → List Val
  | [] => []
  | x :: rest =>
    match handle fn_val x with
    | .error _ => [x]
    | .ok _ => x :: mapValsCalled handle fn_val rest

/-- `fn map` of `simple.rs`: `load_args!(args, fn_val: Val, xs: Vec<Val>)`,
then applies `fn_val` to each element via the handle, collecting the results
(or the first failure). -/
def map (args : List Val) (handle : Apply) : Except Failure Val :=
  match args with
  | [fv, xsv] =>
    match fromValVecVal xsv with
    | .error e => .error e
    | .ok xs =>
      match mapVals handle fv xs with
      | .error e => .error e
      | .ok ys => .ok (Val.Dom (.List ys))
  | _ => .error (.fatal "load_args: wrong number of arguments")

/-- `fn sum` of `simple.rs`: `load_args!(args, xs: Vec<i32>);
ok(xs.iter().sum::<i32>())` — the platform's wrapping 32-bit addition
folded left-to-right from 0. -/
def sum (args : List Val) (_handle : Apply) : Except Failure Val :=
  match args with
  | [xsv] =>
    match fromValVecI32 xsv with
    | .error e => .error e
    | .ok xs => .ok (Val.Dom (.Int (xs.foldl addOp 0)))
  | _ => .error (.fatal "load_args: wrong number of arguments")

/-- Modelled from the spec: the `define_semantics!` macro also populates the
static function table `FUNCS` mapping each symbol to its (implementation,
arity) pair; `lookupFuncs` is the hash-map `get` on that table. -/
def lookupFuncs (p : String) : Option (DSLFn × Nat) :=
  if p = "+" then some (add, 2)
  else if p = "*" then some (mul, 2)
  else if p = "map" then some (map, 2)
  else if p = "sum" then some (sum, 1)
  else none

/-- `fn_of_prim` of `simple.rs`: `FUNCS.get(&p).cloned()`, a pure table
lookup with no fallback. -/
def fn_of_prim (p : String) : Option (DSLFn × Nat) := lookupFuncs p

/-- A handle whose `apply` succeeds with its argument; used to instantiate
primitives (such as `add`) that never touch the handle. -/
def applyNoop : Apply := fun _ v => .ok v

/-- A symbol that is, in its entirety, an unsigned decimal integer literal
denoting `n` within the `i32` range: this is the spec's literal grammar for
the digit-leading case, stated independently of the resolver. -/
def isDigitIntLiteral (s : String) (n : Int) : Prop :=
  s.data ≠ [] ∧ (∀ c ∈ s.data, c.isDigit = true) ∧
    n = (decValue s.data : Int) ∧ inI32 n

/-! ## Helper lemmas -/

theorem decDigits_all_digits :
    ∀ (cs : List Char) (acc n : Nat), decDigits cs acc = some n →
      ∀ c ∈ cs, c.isDigit = true := by
  intro cs
  induction cs with
  | nil => intro acc n _ c hc; cases hc
  | cons c rest ih =>
    intro acc n h c' hc'
    rw [decDigits] at h
    by_cases hd : c.isDigit
    · cases hc' with
      | head => exact hd
      | tail _ ht => exact ih _ n (by simpa [hd] using h) c' ht
    · simp [hd] at h

theorem decDigits_foldl :
    ∀ (cs : List Char) (acc n : Nat), decDigits cs acc = some n →
      n = cs.foldl (fun a c => a * 10 + (c.toNat - 48)) acc := by
  intro cs
  induction cs with
  | nil =>
    intro acc n h
    rw [decDigits] at h
    simpa using h.symm
  | cons c rest ih =>
    intro acc n h
    rw [decDigits] at h
    by_cases hd : c.isDigit
    · simpa [hd] using ih _ n (by simpa [hd] using h)
    · simp [hd] at h

theorem i32ListOfVals_map_i32IntoVal :
    ∀ l : List Int, i32ListOfVals (l.map i32IntoVal) = .ok l := by
  intro l
  induction l with
  | nil => rfl
  | cons i rest ih => simp [i32ListOfVals, fromValI32, i32IntoVal, ih]

theorem vecI32ListOfVals_map_vecI32IntoVal :
    ∀ ll : List (List Int), vecI32ListOfVals (ll.map vecI32IntoVal) = .ok ll := by
  intro ll
  induction ll with
  | nil => rfl
  | cons l rest ih =>
    simp [vecI32ListOfVals, fromValVecI32, vecI32IntoVal,
      i32ListOfVals_map_i32IntoVal, ih]

theorem lookupPrims_eq_none (s : String) (h1 : s ≠ "+") (h2 : s ≠ "*")
    (h3 : s ≠ "map") (h4 : s ≠ "sum") : lookupPrims s = none := by
  simp [lookupPrims, h1, h2, h3, h4]

theorem ne_of_head_digit (s t : String) (c c' : Char) (rest rest' : List Char)
    (h : s.data = c :: rest) (h' : t.data = c' :: rest')
    (hc : c.isDigit = true) (hc' : c'.isDigit = false) : s ≠ t := by
  intro he
  subst he
  rw [h] at h'
  injection h' with h1 _
  rw [h1] at hc
  rw [hc] at hc'
  cases hc'

theorem lookupPrims_digit_none (s : String) (c : Char) (rest : List Char)
    (h : s.data = c :: rest) (hc : c.isDigit = true) : lookupPrims s = none := by
  refine lookupPrims_eq_none s ?_ ?_ ?_ ?_
  · exact ne_of_head_digit s "+" c '+' rest [] h rfl hc (by decide)
  · exact ne_of_head_digit s "*" c '*' rest [] h rfl hc (by decide)
  · exact ne_of_head_digit s "map" c 'm' rest ['a', 'p'] h rfl hc (by decide)
  · exact ne_of_head_digit s "sum" c 's' rest ['u', 'm'] h rfl hc (by decide)

theorem val_of_prim_digit (s : String) (c : Char) (rest : List Char)
    (h : s.data = c :: rest) (hc : c.isDigit = true) :
    val_of_prim s = .ok ((i32FromStr s).map fun i => Val.Dom (.Int i)) := by
  unfold val_of_prim
  rw [lookupPrims_digit_none s c rest h hc, h]
  simp [hc]

theorem i32FromStr_digit_literal (s : String) (c : Char) (rest : List Char)
    (n : Int) (h : s.data = c :: rest) (hc : c.isDigit = true)
    (hp : i32FromStr s = some n) : isDigitIntLiteral s n := by
  have hplus : ¬(c = '+') := by
    intro he; rw [he] at hc; exact absurd hc (by decide)
  have hminus : ¬(c = '-') := by
    intro he; rw [he] at hc; exact absurd hc (by decide)
  unfold i32FromStr at hp
  rw [h] at hp
  simp only [hplus, hminus, if_false, i32FromStrCore] at hp
  cases hd : decDigits (c :: rest) 0 with
  | none => rw [hd] at hp; cases hp
  | some m =>
    rw [hd] at hp
    simp only [Bool.false_eq_true, if_false] at hp
    by_cases hin : inI32 (m : Int)
    · rw [if_pos hin] at hp
      injection hp with hp'
      refine ⟨by rw [h]; exact List.cons_ne_nil c rest, ?_, ?_, ?_⟩
      · rw [h]; exact decDigits_all_digits (c :: rest) 0 m hd
      · rw [← hp', h]
        exact_mod_cast
          (show m = decValue (c :: rest) from decDigits_foldl (c :: rest) 0 m hd)
      · rw [← hp']; exact hin
    · rw [if_neg hin] at hp; cases hp

theorem skipWs_decomp : ∀ cs : List Char, ∃ w, WsRun w ∧ cs = w ++ skipWs cs := by
  intro cs
  induction cs with
  | nil => exact ⟨[], fun c hc => absurd hc (List.not_mem_nil c), rfl⟩
  | cons c rest ih =>
    by_cases hw : isJsonWs c = true
    · obtain ⟨w, hwr, hdec⟩ := ih
      refine ⟨c :: w, ?_, ?_⟩
      · intro c' hc'
        rcases List.mem_cons.mp hc' with rfl | hm
        exacts [hw, hwr c' hm]
      · rw [skipWs, if_pos hw, List.cons_append, ← hdec]
    · refine ⟨[], fun c' hc' => absurd hc' (List.not_mem_nil c'), ?_⟩
      rw [skipWs, if_neg hw, List.nil_append]

theorem wsRun_of_skipWs_nil (cs : List Char) (h : skipWs cs = []) : WsRun cs := by
  obtain ⟨w, hwr, hdec⟩ := skipWs_decomp cs
  rw [h, List.append_nil] at hdec
  rw [hdec]
  exact hwr

theorem digitsLoop_decomp :
    ∀ (cs : List Char) (acc n : Nat) (rest : List Char),
      digitsLoop cs acc = (n, rest) →
      ∃ ds, cs = ds ++ rest ∧ (∀ c ∈ ds, c.isDigit = true) ∧
        n = ds.foldl (fun a c => a * 10 + (c.toNat - 48)) acc := by
  intro cs
  induction cs with
  | nil =>
    intro acc n rest h
    rw [digitsLoop] at h
    injection h with h1 h2
    subst h1
    subst h2
    exact ⟨[], rfl, fun c hc => absurd hc (List.not_mem_nil c), rfl⟩
  | cons c rest0 ih =>
    intro acc n rest h
    rw [digitsLoop] at h
    by_cases hd : c.isDigit
    · rw [if_pos hd] at h
      obtain ⟨ds, hdec, hdig, hval⟩ := ih _ n rest h
      refine ⟨c :: ds, by rw [List.cons_append, ← hdec], ?_, ?_⟩
      · intro c' hc'
        rcases List.mem_cons.mp hc' with rfl | hm
        exacts [hd, hdig c' hm]
      · rw [List.foldl_cons]
        exact hval
    · rw [if_neg hd] at h
      injection h with h1 h2
      subst h1
      subst h2
      exact ⟨[], rfl, fun c' hc' => absurd hc' (List.not_mem_nil c'), rfl⟩

theorem jsonNat_decomp (cs : List Char) (n : Nat) (rest : List Char)
    (h : jsonNat cs = some (n, rest)) :
    ∃ ds, cs = ds ++ rest ∧ JsonNatTok ds ∧ n = decValue ds := by
  match cs with
  | [] => exact absurd h (by simp [jsonNat])
  | c :: rest0 =>
    simp only [jsonNat] at h
    by_cases h0 : c = '0'
    · subst h0
      rw [if_pos rfl] at h
      match rest0 with
      | [] =>
        injection h with h1
        injection h1 with ha hb
        subst ha
        subst hb
        exact ⟨['0'], rfl, ⟨by simp, by decide, fun ds' hd => by
          injection hd with _ h2; exact h2.symm⟩, by decide⟩
      | c2 :: r2 =>
        simp only [] at h
        by_cases hd2 : c2.isDigit
        · rw [if_pos hd2] at h
          cases h
        · rw [if_neg hd2] at h
          injection h with h1
          injection h1 with ha hb
          subst ha
          subst hb
          exact ⟨['0'], rfl, ⟨by simp, by decide, fun ds' hd => by
            injection hd with _ h2; exact h2.symm⟩, by decide⟩
    · rw [if_neg h0] at h
      by_cases hd : c.isDigit
      · rw [if_pos hd] at h
        rcases hq : digitsLoop rest0 (c.toNat - 48) with ⟨n', rest'⟩
        rw [hq] at h
        injection h with h1
        injection h1 with ha hb
        obtain ⟨ds, hdec, hdig, hval⟩ := digitsLoop_decomp rest0 _ n' rest' hq
        refine ⟨c :: ds, ?_, ?_, ?_⟩
        · rw [← hb, List.cons_append, ← hdec]
        · refine ⟨by simp, ?_, ?_⟩
          · intro c' hc'
            rcases List.mem_cons.mp hc' with rfl | hm2
            exacts [hd, hdig c' hm2]
          · intro ds' hds'
            injection hds' with hh _
            exact absurd hh h0
        · rw [← ha]
          simp only [decValue, List.foldl_cons]
          simpa using hval
      · rw [if_neg hd] at h
        cases h

theorem jsonInt_decomp (cs : List Char) (n : Int) (rest : List Char)
    (h : jsonInt cs = some (n, rest)) :
    ∃ t, cs = t ++ rest ∧ JsonIntTok t n := by
  match cs with
  | [] => exact absurd h (by simp [jsonInt])
  | c :: rest0 =>
    simp only [jsonInt] at h
    by_cases hm : c = '-'
    · rw [if_pos hm] at h
      cases hjn : jsonNat rest0 with
      | none => rw [hjn] at h; cases h
      | some p =>
        obtain ⟨m, r⟩ := p
        rw [hjn] at h
        simp only [] at h
        by_cases hin : inI32 (-(m : Int))
        · rw [if_pos hin] at h
          injection h with h1
          injection h1 with ha hb
          subst hb
          obtain ⟨ds, hdec, htok, hval⟩ := jsonNat_decomp rest0 m r hjn
          subst hm
          refine ⟨'-' :: ds, by rw [List.cons_append, ← hdec],
            Or.inr ⟨ds, rfl, htok, ?_, ?_⟩⟩
          · rw [← ha, hval]
          · rw [← ha]
            exact hin
        · rw [if_neg hin] at h
          cases h
    · rw [if_neg hm] at h
      cases hjn : jsonNat (c :: rest0) with
      | none => rw [hjn] at h; cases h
      | some p =>
        obtain ⟨m, r⟩ := p
        rw [hjn] at h
        simp only [] at h
        by_cases hin : inI32 (m : Int)
        · rw [if_pos hin] at h
          injection h with h1
          injection h1 with ha hb
          subst hb
          obtain ⟨ds, hdec, htok, hval⟩ := jsonNat_decomp (c :: rest0) m r hjn
          refine ⟨ds, hdec, Or.inl ⟨htok, ?_, ?_⟩⟩
          · rw [← ha, hval]
          · rw [← ha]
            exact hin
        · rw [if_neg hin] at h
          cases h

theorem jsonItems_decomp :
    ∀ (fuel : Nat) (cs : List Char) (ns : List Int) (rest : List Char),
      jsonItems fuel cs = some (ns, rest) →
      ∃ body, cs = body ++ rest ∧ JsonElemsTok body ns := by
  intro fuel
  induction fuel with
  | zero => intro cs ns rest h; exact absurd h (by simp [jsonItems])
  | succ fuel ih =>
    intro cs ns rest h
    rw [jsonItems] at h
    cases hji : jsonInt cs with
    | none => rw [hji] at h; cases h
    | some p =>
      obtain ⟨n, r1⟩ := p
      rw [hji] at h
      simp only [] at h
      obtain ⟨t, htdec, htok⟩ := jsonInt_decomp cs n r1 hji
      obtain ⟨w, hw, hwdec⟩ := skipWs_decomp r1
      cases hsw : skipWs r1 with
      | nil => rw [hsw] at h; cases h
      | cons c rest2 =>
        rw [hsw] at h
        simp only [] at h
        rw [hsw] at hwdec
        by_cases hc : c = ']'
        · rw [if_pos hc] at h
          injection h with h1
          injection h1 with ha hb
          subst ha
          subst hb
          subst hc
          refine ⟨t ++ w ++ [']'], ?_, JsonElemsTok.last t w n htok hw⟩
          rw [htdec, hwdec]
          simp [List.append_assoc]
        · rw [if_neg hc] at h
          by_cases hc2 : c = ','
          · rw [if_pos hc2] at h
            cases hji2 : jsonItems fuel (skipWs rest2) with
            | none => rw [hji2] at h; cases h
            | some q =>
              obtain ⟨ns', rest3⟩ := q
              rw [hji2] at h
              simp only [] at h
              injection h with h1
              injection h1 with ha hb
              subst ha
              subst hb
              obtain ⟨body', hbdec, hbtok⟩ := ih (skipWs rest2) ns' rest3 hji2
              obtain ⟨w', hw', hwdec'⟩ := skipWs_decomp rest2
              rw [hbdec] at hwdec'
              subst hc2
              refine ⟨t ++ w ++ ',' :: (w' ++ body'), ?_,
                JsonElemsTok.cons t w w' body' n ns' htok hw hw' hbtok⟩
              rw [htdec, hwdec, hwdec']
              simp [List.append_assoc]
          · rw [if_neg hc2] at h
            cases h

theorem jsonIntArray_sound (s : String) (ns : List Int)
    (h : jsonIntArray s = some ns) : isJsonIntArrayLiteral s ns := by
  obtain ⟨w1, hw1, hdec1⟩ := skipWs_decomp s.data
  unfold jsonIntArray at h
  cases hsw1 : skipWs s.data with
  | nil => rw [hsw1] at h; cases h
  | cons c rest =>
    rw [hsw1] at h
    simp only [] at h
    rw [hsw1] at hdec1
    by_cases hc : c = '['
    · rw [if_pos hc] at h
      subst hc
      obtain ⟨w2, hw2, hdec2⟩ := skipWs_decomp rest
      cases hsw2 : skipWs rest with
      | nil => rw [hsw2] at h; cases h
      | cons c2 rest2 =>
        rw [hsw2] at h
        simp only [] at h
        rw [hsw2] at hdec2
        by_cases hc2 : c2 = ']'
        · rw [if_pos hc2] at h
          subst hc2
          by_cases he : skipWs rest2 = []
          · rw [if_pos he] at h
            injection h with ha
            subst ha
            exact Or.inl ⟨w1, w2, rest2, hw1, hw2, wsRun_of_skipWs_nil rest2 he,
              by rw [hdec1, hdec2], rfl⟩
          · rw [if_neg he] at h
            cases h
        · rw [if_neg hc2] at h
          cases hji : jsonItems ((c2 :: rest2).length + 1) (c2 :: rest2) with
          | none => rw [hji] at h; cases h
          | some p =>
            obtain ⟨ns', r⟩ := p
            rw [hji] at h
            simp only [] at h
            by_cases he : skipWs r = []
            · rw [if_pos he] at h
              injection h with ha
              obtain ⟨body, hbdec, hbtok⟩ :=
                jsonItems_decomp ((c2 :: rest2).length + 1) (c2 :: rest2) ns' r hji
              refine Or.inr ⟨w1, w2, body, r, hw1, hw2,
                wsRun_of_skipWs_nil r he, ?_, ?_⟩
              · rw [hdec1, hdec2, hbdec]
                simp [List.append_assoc]
              · rw [← ha]
                exact hbtok
            · rw [if_neg he] at h
              cases h
    · rw [if_neg hc] at h
      cases h

theorem ne_of_head_ne (s t : String) (c c' : Char) (rest rest' : List Char)
    (h : s.data = c :: rest) (h' : t.data = c' :: rest')
    (hcc : ¬(c = c')) : s ≠ t := by
  intro he
  subst he
  rw [h] at h'
  injection h' with h1 _
  exact hcc h1

theorem lookupPrims_bracket_none (s : String) (rest : List Char)
    (h : s.data = '[' :: rest) : lookupPrims s = none := by
  refine lookupPrims_eq_none s ?_ ?_ ?_ ?_
  · exact ne_of_head_ne s "+" '[' '+' rest [] h rfl (by decide)
  · exact ne_of_head_ne s "*" '[' '*' rest [] h rfl (by decide)
  · exact ne_of_head_ne s "map" '[' 'm' rest ['a', 'p'] h rfl (by decide)
  · exact ne_of_head_ne s "sum" '[' 's' rest ['u', 'm'] h rfl (by decide)

theorem val_of_prim_bracket (s : String) (rest : List Char)
    (h : s.data = '[' :: rest) :
    val_of_prim s = .ok ((jsonIntArray s).map fun l =>
      Val.Dom (.List (l.map fun i => Val.Dom (.Int i)))) := by
  unfold val_of_prim
  rw [lookupPrims_bracket_none s rest h, h]
  simp

/-! ## Claim theorems -/

/-- C3: `resolve("42") = Domain(Int 42)`,
`resolve("[1,2,3]") = Domain(List [Int 1, Int 2, Int 3])`, malformed
literals (`"[1,2"`, `"1abc"`, trailing garbage `"[1,2]x"`) resolve to
`None`; every digit-leading symbol that resolves to an integer is, in its
entirety, a decimal integer literal of that value; and every `[`-leading
symbol that resolves at all resolves to the wrapped integer list denoted by
its entire text under the JSON array-of-integers grammar — no partial
parse in either case. -/
theorem c3_literal_grammar :
    val_of_prim "42" = .ok (some (Val.Dom (.Int 42))) ∧
    val_of_prim "[1,2,3]" = .ok (some (Val.Dom (.List
      [Val.Dom (.Int 1), Val.Dom (.Int 2), Val.Dom (.Int 3)]))) ∧
    val_of_prim "[1,2" = .ok none ∧
    val_of_prim "1abc" = .ok none ∧
    val_of_prim "[1,2]x" = .ok none ∧
    (∀ (s : String) (c : Char) (rest : List Char) (n : Int),
      s.data = c :: rest → c.isDigit = true →
      val_of_prim s = .ok (some (Val.Dom (.Int n))) → isDigitIntLiteral s n) ∧
    (∀ (s : String) (rest : List Char) (v : Val),
      s.data = '[' :: rest →
      val_of_prim s = .ok (some v) →
      ∃ ns : List Int, v = Val.Dom (.List (ns.map fun i => Val.Dom (.Int i))) ∧
        isJsonIntArrayLiteral s ns) := by
  refine ⟨rfl, rfl, rfl, rfl, rfl, ?_, ?_⟩
  · intro s c rest n h hc hv
    rw [val_of_prim_digit s c rest h hc] at hv
    injection hv with hv'
    obtain ⟨m, hm, hfm⟩ := Option.map_eq_some'.mp hv'
    have hmn : m = n := by
      injection hfm with h1
      injection h1 with h2
    subst hmn
    exact i32FromStr_digit_literal s c rest m h hc hm
  · intro s rest v h hv
    rw [val_of_prim_bracket s rest h] at hv
    injection hv with hv'
    obtain ⟨ns, hns, hvm⟩ := Option.map_eq_some'.mp hv'
    exact ⟨ns, hvm.symm, jsonIntArray_sound s ns hns⟩

/-- C4 (amended): for every nonempty symbol that misses the static registry
and whose first character is neither a decimal digit nor `[`, `val_of_prim`
returns `None` — an empty result, not an error. (On the empty symbol the
claim fails: see the counterexample.) -/
theorem c4_nonliteral_resolution (s : String) (c : Char) (rest : List Char)
    (h : s.data = c :: rest) (hd : c.isDigit = false) (hb : ¬(c = '['))
    (hp : lookupPrims s = none) : val_of_prim s = .ok none := by
  unfold val_of_prim
  rw [hp, h]
  simp [hd, hb]

/-- C4 counterexample: on the empty symbol, `val_of_prim` does not return an
empty result — the `unwrap()` of the symbol's first character panics. -/
theorem c4_empty_symbol_panics :
    val_of_prim "" = .error (.fatal "called Option::unwrap on a None value") := rfl

/-- C4 witness: `resolve("foo")` is an empty result. -/
theorem c4_nonliteral_resolution_witness :
    lookupPrims "foo" = none ∧ val_of_prim "foo" = .ok none :=
  ⟨rfl, c4_nonliteral_resolution "foo" 'f' ['o', 'o'] rfl (by decide) (by decide) rfl⟩

/-- C5 (amended): the literal fallback treats a symbol as an integer literal
only when its first character is a decimal digit; every such symbol whose
entire text parses as an `i32` resolves to `Domain(Int(parsed))`. -/
theorem c5_digit_literal_resolves (s : String) (c : Char) (rest : List Char)
    (n : Int) (h : s.data = c :: rest) (hc : c.isDigit = true)
    (hp : i32FromStr s = some n) :
    val_of_prim s = .ok (some (Val.Dom (.Int n))) := by
  rw [val_of_prim_digit s c rest h hc, hp]
  rfl

/-- C5 counterexample: the negative literal `"-3"` starts with `-`, which is
not a decimal digit, so resolution returns an empty result instead of
`Domain(Int(-3))`. -/
theorem c5_negative_literal_unresolved : val_of_prim "-3" = .ok none := rfl

/-- C5 witness: `"007"` is digit-leading and parses whole as 7. -/
theorem c5_digit_literal_resolves_witness :
    i32FromStr "007" = some 7 ∧
    val_of_prim "007" = .ok (some (Val.Dom (.Int 7))) :=
  ⟨by decide, c5_digit_literal_resolves "007" '0' ['0', '7'] 7 rfl (by decide) (by decide)⟩

/-- If every `apply` call before position `i` succeeds and the call at `i`
fails with `e`, then the `collect` pipeline of `fn map` yields `Err(e)` and
`apply` is invoked exactly on the first `i + 1` elements, in order. -/
theorem mapVals_short_circuit (h : Apply) (f : Val) :
    ∀ (xs : List Val) (i : Nat) (hi : i < xs.length) (e : Failure),
      h f (xs.get ⟨i, hi⟩) = .error e →
      (∀ j (hj : j < i), ∃ y, h f (xs.get ⟨j, Nat.lt_trans hj hi⟩) = .ok y) →
      mapVals h f xs = .error e ∧ mapValsCalled h f xs = xs.take (i + 1) := by
  intro xs
  induction xs with
  | nil => intro i hi; cases hi
  | cons x rest ih =>
    intro i hi e hfail hok
    cases i with
    | zero =>
      have hx : h f x = .error e := hfail
      constructor
      · rw [mapVals, hx]
      · rw [mapValsCalled, hx, List.take_succ_cons, List.take_zero]
    | succ i' =>
      obtain ⟨y, hy⟩ := hok 0 (Nat.succ_pos i')
      have hx : h f x = .ok y := hy
      have hi' : i' < rest.length := Nat.lt_of_succ_lt_succ hi
      have hfail' : h f (rest.get ⟨i', hi'⟩) = .error e := hfail
      have hok' : ∀ j (hj : j < i'),
          ∃ z, h f (rest.get ⟨j, Nat.lt_trans hj hi'⟩) = .ok z := by
        intro j hj
        obtain ⟨z, hz⟩ := hok (j + 1) (Nat.succ_lt_succ hj)
        exact ⟨z, hz⟩
      obtain ⟨hm, hcalled⟩ := ih i' hi' e hfail' hok'
      constructor
      · rw [mapVals, hx, hm]
      · rw [mapValsCalled, hx, hcalled, List.take_succ_cons]

/-- If the `collect` pipeline of `fn map` succeeds with `ys`, then `ys` has
the same length as the input, its `i`-th element is the successful result of
`apply` on the `i`-th input, and `apply` was invoked on every element in
order. -/
theorem mapVals_ok (h : Apply) (f : Val) :
    ∀ (xs ys : List Val), mapVals h f xs = .ok ys →
      ys.length = xs.length ∧
      (∀ (i : Nat) (hx : i < xs.length) (hy : i < ys.length),
        h f (xs.get ⟨i, hx⟩) = .ok (ys.get ⟨i, hy⟩)) ∧
      mapValsCalled h f xs = xs := by
  intro xs
  induction xs with
  | nil =>
    intro ys hm
    rw [mapVals] at hm
    injection hm with hm'
    subst hm'
    exact ⟨rfl, fun i hx => absurd hx (Nat.not_lt_zero i), rfl⟩
  | cons x rest ih =>
    intro ys hm
    rw [mapVals] at hm
    cases hx : h f x with
    | error e => rw [hx] at hm; cases hm
    | ok y =>
      rw [hx] at hm
      cases hrest : mapVals h f rest with
      | error e => rw [hrest] at hm; cases hm
      | ok ys' =>
        rw [hrest] at hm
        injection hm with hm'
        subst hm'
        obtain ⟨hlen, helem, hcalled⟩ := ih ys' hrest
        refine ⟨by simp [hlen], ?_, by rw [mapValsCalled, hx, hcalled]⟩
        intro i hxi hyi
        cases i with
        | zero => exact hx
        | succ i' =>
          exact helem i' (Nat.lt_of_succ_lt_succ hxi) (Nat.lt_of_succ_lt_succ hyi)

/-- C1: if `apply` fails at position `i` (all earlier applications
succeeding), `map` fails with that same failure, no result sequence is
produced, and no `apply` call is made for any element after position `i`. -/
theorem c1_map_short_circuit (h : Apply) (f : Val) (xs : List Val) (i : Nat)
    (e : Failure) (hi : i < xs.length)
    (hfail : h f (xs.get ⟨i, hi⟩) = .error e)
    (hok : ∀ j (hj : j < i), ∃ y, h f (xs.get ⟨j, Nat.lt_trans hj hi⟩) = .ok y) :
    map [f, Val.Dom (.List xs)] h = .error e ∧
    mapValsCalled h f xs = xs.take (i + 1) := by
  obtain ⟨hm, hcalled⟩ := mapVals_short_circuit h f xs i hi e hfail hok
  constructor
  · simp only [map, fromValVecVal]
    rw [hm]
  · exact hcalled

/-- The opaque function value used to exercise `map` in the witnesses. -/
def fVal : Val := .Func "f" 1

/-- A handle whose `apply` fails (recoverably) exactly on `Int 2` and
succeeds with its argument elsewhere. -/
def applyFailOn2 : Apply := fun _ x =>
  match x with
  | .Dom (.Int 2) => .error (.err "boom")
  | v => .ok v

/-- C1 witness: with `apply` failing on the second of three elements, `map`
fails with that failure and `apply` is called only on the first two
elements. -/
theorem c1_map_short_circuit_witness :
    map [fVal, Val.Dom (.List [Val.Dom (.Int 1), Val.Dom (.Int 2), Val.Dom (.Int 3)])]
        applyFailOn2 = .error (.err "boom") ∧
    mapValsCalled applyFailOn2 fVal
        [Val.Dom (.Int 1), Val.Dom (.Int 2), Val.Dom (.Int 3)]
      = [Val.Dom (.Int 1), Val.Dom (.Int 2)] := by
  have h := c1_map_short_circuit applyFailOn2 fVal
    [Val.Dom (.Int 1), Val.Dom (.Int 2), Val.Dom (.Int 3)] 1 (.err "boom")
    (by decide) rfl
    (by
      intro j hj
      have hj0 : j = 0 := by omega
      subst hj0
      exact ⟨Val.Dom (.Int 1), rfl⟩)
  exact ⟨h.1, h.2.trans rfl⟩

/-- C9: on success, `map(f, xs)` returns a sequence of the same length as
`xs` whose `i`-th element is the result of `apply(f, xs[i])`, with the
`apply` calls made in order over all of `xs`. -/
theorem c9_map_success (h : Apply) (f : Val) (xs ys : List Val)
    (hmap : map [f, Val.Dom (.List xs)] h = .ok (Val.Dom (.List ys))) :
    ys.length = xs.length ∧
    (∀ (i : Nat) (hx : i < xs.length) (hy : i < ys.length),
      h f (xs.get ⟨i, hx⟩) = .ok (ys.get ⟨i, hy⟩)) ∧
    mapValsCalled h f xs = xs := by
  simp only [map, fromValVecVal] at hmap
  cases hm : mapVals h f xs with
  | error e => rw [hm] at hmap; cases hmap
  | ok ys' =>
    rw [hm] at hmap
    injection hmap with h1
    injection h1 with h2
    injection h2 with h3
    subst h3
    exact mapVals_ok h f xs _ hm

/-- A handle whose `apply` doubles integer arguments (with 32-bit
wraparound, as an in-language function would). -/
def applyDouble : Apply := fun _ x =>
  match x with
  | .Dom (.Int i) => .ok (.Dom (.Int (wrap32 (2 * i))))
  | _ => .error (.err "not an int")

/-- C9 witness: `map(double_fn, [Int 1, Int 2, Int 3]) =
[Int 2, Int 4, Int 6]`, with `apply` invoked on every element in order. -/
theorem c9_map_success_witness :
    map [fVal, Val.Dom (.List [Val.Dom (.Int 1), Val.Dom (.Int 2), Val.Dom (.Int 3)])]
        applyDouble
      = .ok (Val.Dom (.List [Val.Dom (.Int 2), Val.Dom (.Int 4), Val.Dom (.Int 6)])) ∧
    mapValsCalled applyDouble fVal
        [Val.Dom (.Int 1), Val.Dom (.Int 2), Val.Dom (.Int 3)]
      = [Val.Dom (.Int 1), Val.Dom (.Int 2), Val.Dom (.Int 3)] := by
  have hmap : map
      [fVal, Val.Dom (.List [Val.Dom (.Int 1), Val.Dom (.Int 2), Val.Dom (.Int 3)])]
      applyDouble
      = .ok (Val.Dom (.List [Val.Dom (.Int 2), Val.Dom (.Int 4), Val.Dom (.Int 6)])) := by
    simp only [map, fromValVecVal]
    rw [show mapVals applyDouble fVal
        [Val.Dom (.Int 1), Val.Dom (.Int 2), Val.Dom (.Int 3)]
        = .ok [Val.Dom (.Int 2), Val.Dom (.Int 4), Val.Dom (.Int 6)] from ?_]
    · rw [mapVals, mapVals, mapVals, mapVals]
      simp only [applyDouble]
      rw [show wrap32 (2 * 1) = 2 by decide, show wrap32 (2 * 2) = 4 by decide,
        show wrap32 (2 * 3) = 6 by decide]
  exact ⟨hmap,
    (c9_map_success applyDouble fVal
      [Val.Dom (.Int 1), Val.Dom (.Int 2), Val.Dom (.Int 3)]
      [Val.Dom (.Int 2), Val.Dom (.Int 4), Val.Dom (.Int 6)] hmap).2.2⟩

/-- C2: unwrapping a `Val` whose shape does not match the requested host
type fails fatally with the type-mismatch panic, never returning a value:
a non-`Dom (Int _)` cannot be unwrapped as an `i32` and a non-`Dom (List _)`
cannot be unwrapped as a `Vec`. -/
theorem c2_unwrap_type_mismatch :
    (∀ v : Val, (∀ i : Int, v ≠ .Dom (.Int i)) →
      fromValI32 v = .error (.fatal "from_val_to_i32: not an int")) ∧
    (∀ v : Val, (∀ l : List Val, v ≠ .Dom (.List l)) →
      fromValVecVal v = .error (.fatal "from_val_to_vec: not a list") ∧
      fromValVecI32 v = .error (.fatal "from_val_to_vec: not a list")) := by
  constructor
  · intro v hv
    match v with
    | .Dom (.Int i) => exact absurd rfl (hv i)
    | .Dom (.List l) => rfl
    | .Func n a => rfl
  · intro v hv
    match v with
    | .Dom (.List l) => exact absurd rfl (hv l)
    | .Dom (.Int i) => exact ⟨rfl, rfl⟩
    | .Func n a => exact ⟨rfl, rfl⟩

/-- C6: `add` and `mul` compute `x + y` and `x * y` under 32-bit
two's-complement wraparound semantics for every pair of representable
integers. -/
theorem c6_add_mul_wrap32 (x y : Int) (_hx : inI32 x) (_hy : inI32 y) :
    add [Val.Dom (.Int x), Val.Dom (.Int y)] applyNoop
      = .ok (Val.Dom (.Int (wrap32 (x + y)))) ∧
    mul [Val.Dom (.Int x), Val.Dom (.Int y)] applyNoop
      = .ok (Val.Dom (.Int (wrap32 (x * y)))) :=
  ⟨rfl, rfl⟩

/-- C6 witness: `add([Int 1, Int 2]) = Int 3`, `mul([Int 2, Int 3]) = Int 6`,
and addition wraps around at the `i32` boundary instead of saturating or
failing. -/
theorem c6_add_mul_wrap32_witness :
    add [Val.Dom (.Int 1), Val.Dom (.Int 2)] applyNoop
      = .ok (Val.Dom (.Int 3)) ∧
    mul [Val.Dom (.Int 2), Val.Dom (.Int 3)] applyNoop
      = .ok (Val.Dom (.Int 6)) ∧
    add [Val.Dom (.Int 2147483647), Val.Dom (.Int 1)] applyNoop
      = .ok (Val.Dom (.Int (-2147483648))) := by
  have h1 := (c6_add_mul_wrap32 1 2 (by decide) (by decide)).1
  have h2 := (c6_add_mul_wrap32 2 3 (by decide) (by decide)).2
  have h3 := (c6_add_mul_wrap32 2147483647 1 (by decide) (by decide)).1
  rw [show wrap32 (1 + 2) = 3 by decide] at h1
  rw [show wrap32 (2 * 3) = 6 by decide] at h2
  rw [show wrap32 (2147483647 + 1) = -2147483648 by decide] at h3
  exact ⟨h1, h2, h3⟩

/-- C7: wrapping then unwrapping is the identity, for integers, for
sequences of integers (empty included), and for nested sequences. -/
theorem c7_wrap_unwrap_roundtrip :
    (∀ n : Int, fromValI32 (i32IntoVal n) = .ok n) ∧
    (∀ l : List Int, fromValVecI32 (vecI32IntoVal l) = .ok l) ∧
    (∀ ll : List (List Int), fromValVecVecI32 (vecVecI32IntoVal ll) = .ok ll) := by
  refine ⟨fun n => rfl, fun l => ?_, fun ll => ?_⟩
  · simp [fromValVecI32, vecI32IntoVal, i32ListOfVals_map_i32IntoVal]
  · simp [fromValVecVecI32, vecVecI32IntoVal, vecI32ListOfVals_map_vecI32IntoVal]

/-- C8: `sum` folds its integer-sequence argument left-to-right with `add`'s
wrapping operator seeded at 0; in particular `sum([]) = Int 0` and
`sum([Int 1, Int 2, Int 3]) = Int 6`. -/
theorem c8_sum_foldl (h : Apply) (xs : List Int) :
    sum [vecI32IntoVal xs] h = .ok (Val.Dom (.Int (xs.foldl addOp 0))) ∧
    sum [vecI32IntoVal []] h = .ok (Val.Dom (.Int 0)) ∧
    sum [vecI32IntoVal [1, 2, 3]] h = .ok (Val.Dom (.Int 6)) := by
  have key : ∀ ys : List Int,
      sum [vecI32IntoVal ys] h = .ok (Val.Dom (.Int (ys.foldl addOp 0))) := by
    intro ys
    simp [sum, fromValVecI32, vecI32IntoVal, i32ListOfVals_map_i32IntoVal]
  refine ⟨key xs, ?_, ?_⟩
  · simpa using key []
  · have := key [1, 2, 3]
    rwa [show ([1, 2, 3] : List Int).foldl addOp 0 = 6 by decide] at this

/-- C10: the four registered symbols resolve to values and to callables with
the declared arities, by pure table lookup; every other symbol has no
callable. -/
theorem c10_registry_lookup :
    lookupPrims "+" = some (.Func "+" 2) ∧
    lookupPrims "*" = some (.Func "*" 2) ∧
    lookupPrims "map" = some (.Func "map" 2) ∧
    lookupPrims "sum" = some (.Func "sum" 1) ∧
    val_of_prim "+" = .ok (some (.Func "+" 2)) ∧
    val_of_prim "*" = .ok (some (.Func "*" 2)) ∧
    val_of_prim "map" = .ok (some (.Func "map" 2)) ∧
    val_of_prim "sum" = .ok (some (.Func "sum" 1)) ∧
    fn_of_prim "+" = some (add, 2) ∧
    fn_of_prim "*" = some (mul, 2) ∧
    fn_of_prim "map" = some (map, 2) ∧
    fn_of_prim "sum" = some (sum, 1) ∧
    (∀ s : String, s ≠ "+" → s ≠ "*" → s ≠ "map" → s ≠ "sum" →
      fn_of_prim s = none) := by
  refine ⟨rfl, rfl, rfl, rfl, rfl, rfl, rfl, rfl, rfl, rfl, rfl, rfl, ?_⟩
  intro s h1 h2 h3 h4
  simp [fn_of_prim, lookupFuncs, h1, h2, h3, h4]

end SimpleDomain
